import Mathlib

/-!
Verification of the StackFast blueprint-generation pipeline.

The definitions below are a shallow embedding of the selection pipeline in
`pages/api/generate-blueprint.ts` (the API handler found in
`src/pages/_app.tsx` of the repository), together with the shared types from
the shared `types` module of the repository:

* `ToolProfile`, `GeminiAnalysis` — the shared TypeScript interfaces;
* `preferredOf` / `remainingOf` — the two `filter` calls splitting the
  catalog on `preferredToolIds` (lines 128–129);
* `scoreTools` — the `map`-then-`sort` of the remaining tools
  (lines 131–135); JavaScript `Array.prototype.sort` is a stable sort, so it
  is embedded as `List.mergeSort` with the comparator `b.score - a.score`
  rendered as the boolean relation `b.score ≤ a.score`;
* `completeCategory` — one pass of the category-completion loop
  (lines 138–148), used for the three essential categories and once more for
  "Code Generation";
* `upsertById` / `dedupById` — JavaScript `Map` construction from a keyed
  list (line 150): inserting an existing key overwrites the stored value but
  keeps the original insertion position of the key, and `Map.values()` iterates in
  key-insertion order;
* `handler` — the request-level control flow (lines 100–168), with the
  external collaborators (session, analysis service, catalog store) given as
  explicit outcome parameters, and the list of collaborator invocations made
  by the run returned alongside the response.
-/

namespace StackFast

/-- The `ToolProfile` interface from the shared types module: identifier,
display name, category, and the skill-cost pair.  The open-ended
`[key: string]: any` extension bag is not modelled; no claim depends on
fields outside the declared ones. -/
structure ToolProfile where
  id : String
  name : String
  category : String
  setup : Nat
  daily : Nat
  deriving DecidableEq, Repr

/-- The complexity classification of a project analysis
(the union of the string literals Low, Moderate and High). -/
inductive Complexity where
  | low
  | moderate
  | high
  deriving DecidableEq, Repr

/-- The string each complexity literal interpolates to. -/
def Complexity.text : Complexity → String
  | .low => "Low"
  | .moderate => "Moderate"
  | .high => "High"

/-- The `GeminiAnalysis` interface from the shared types module. -/
structure GeminiAnalysis where
  features : List String
  technologies : List String
  complexity : Complexity
  deriving DecidableEq, Repr

/-- A tool annotated with the transient numeric score produced by the scorer
(`{ ...tool, score }`). -/
structure Scored where
  tool : ToolProfile
  score : Int
  deriving DecidableEq, Repr

/-- An element of the `selectedTools` accumulator.  Preferred tools enter the
accumulator without a `score` field (`none`); backfilled tools carry the
score attached by the scorer (`some`). -/
structure StackEntry where
  tool : ToolProfile
  score : Option Int
  deriving DecidableEq, Repr

/-- A scored tool pushed onto the accumulator keeps its score field. -/
def Scored.toEntry (s : Scored) : StackEntry :=
  ⟨s.tool, some s.score⟩

/-- The `essentialCategories` list of the handler (line 137). -/
def essentialCategories : List String :=
  ["Language Model", "Database", "Deployment Platform"]

/-- Line 128: `allTools.filter(t => preferredToolIds.includes(t.id))`. -/
def preferredOf (allTools : List ToolProfile) (preferredToolIds : List String) :
    List ToolProfile :=
  allTools.filter fun t => preferredToolIds.contains t.id

/-- Line 129: `allTools.filter(t => !preferredToolIds.includes(t.id))`. -/
def remainingOf (allTools : List ToolProfile) (preferredToolIds : List String) :
    List ToolProfile :=
  allTools.filter fun t => !preferredToolIds.contains t.id

/-- Lines 131–135: attach a score to every remaining tool and sort by score,
descending, with a stable sort.

Modelled from the spec: the concrete scoring formula is elided in the source
(`let score = 0; // ... scoring logic remains the same`), and §4.2 / §9 of the
specification state that the formula is an unspecified extension point that
must be total.  It is therefore kept abstract as the total function parameter
`scoreOf`; every property proved below holds for every such formula. -/
def scoreTools (scoreOf : ToolProfile → Int) (tools : List ToolProfile) :
    List Scored :=
  (tools.map fun t => ⟨t, scoreOf t⟩).mergeSort
    fun a b => decide (b.score ≤ a.score)

/-- Lines 138–143 (one iteration) and lines 145–148: if the accumulator has
no tool of `category`, scan the sorted scored list for the first tool of that
category whose identifier is not already in the accumulator, and append it
when found. -/
def completeCategory (scoredTools : List Scored)
    (selectedTools : List StackEntry) (category : String) : List StackEntry :=
  if selectedTools.any fun t => t.tool.category == category then
    selectedTools
  else
    match scoredTools.find? fun t =>
        t.tool.category == category &&
          !(selectedTools.any fun s => s.tool.id == t.tool.id) with
    | some bestFit => selectedTools ++ [bestFit.toEntry]
    | none => selectedTools

/-- Lines 128–148: the full `selectedTools` accumulator right before
de-duplication — preferred tools, then the essential-category backfill loop,
then the extra "Code Generation" backfill. -/
def accumulatorOf (scoreOf : ToolProfile → Int) (allTools : List ToolProfile)
    (preferredToolIds : List String) : List StackEntry :=
  completeCategory (scoreTools scoreOf (remainingOf allTools preferredToolIds))
    (essentialCategories.foldl
      (completeCategory (scoreTools scoreOf (remainingOf allTools preferredToolIds)))
      ((preferredOf allTools preferredToolIds).map fun t => ⟨t, none⟩))
    "Code Generation"

/-- One `Map.set` step of `new Map(selectedTools.map(item => [item.id, item]))`:
setting an existing key replaces its value in place, a new key is appended. -/
def upsertById (m : List StackEntry) (e : StackEntry) : List StackEntry :=
  if m.any fun x => x.tool.id == e.tool.id then
    m.map fun x => if x.tool.id == e.tool.id then e else x
  else
    m ++ [e]

/-- Line 150: `Array.from(new Map(selectedTools.map(item => [item.id, item])).values())`. -/
def dedupById (l : List StackEntry) : List StackEntry :=
  l.foldl upsertById []

/-- Specification-side description of the key order of the Map built on
line 150: the identifiers of the accumulator entries in order of first
occurrence.  Stated from the words of §4.4 of the specification ("preserving
the order of first occurrence"); compared against `dedupById` below. -/
def keysOf (l : List StackEntry) : List String :=
  l.foldl (fun ks e => if ks.contains e.tool.id then ks else ks ++ [e.tool.id]) []

/-- Specification-side description of the value stored under one key of the
Map built on line 150: the last accumulator entry carrying that identifier.
Compared against `dedupById` below. -/
def lastEntryWith (l : List StackEntry) (k : String) : Option StackEntry :=
  (l.filter fun e => e.tool.id == k).getLast?

/-- Lines 150–151: the final stack — de-duplicate the accumulator by
identifier, then strip the transient score field
(`.map(({ score, ...rest }) => rest)`). -/
def generateStack (scoreOf : ToolProfile → Int) (allTools : List ToolProfile)
    (preferredToolIds : List String) : List ToolProfile :=
  (dedupById (accumulatorOf scoreOf allTools preferredToolIds)).map (·.tool)

/-- One advisory message of the blueprint (`{ type, message }`). -/
structure Warning where
  type : String
  message : String
  deriving DecidableEq, Repr

/-- The success payload of the handler (lines 153–160). -/
structure Blueprint where
  summary : String
  recommendedStack : List ToolProfile
  warnings : List Warning
  deriving DecidableEq, Repr

/-- The HTTP response produced by the handler: an error status with an
`{ error }` body, or a 200 with a blueprint body. -/
inductive Response where
  | error (status : Nat) (message : String)
  | success (blueprint : Blueprint)
  deriving DecidableEq, Repr

/-- The HTTP status code of a response. -/
def Response.status : Response → Nat
  | .error s _ => s
  | .success _ => 200

/-- The two external collaborators the pipeline can invoke after
authentication: the project-analysis service (Gemini) and the catalog store
(Firestore). -/
inductive Collab where
  | analysisService
  | catalogStore
  deriving DecidableEq, Repr

/-- Outcome of the project-analysis collaborator: a parsed analysis, or a
thrown error (network failure, unparsable reply, …). -/
inductive AnalysisOutcome where
  | ok (a : GeminiAnalysis)
  | err
  deriving DecidableEq, Repr

/-- Outcome of the catalog store: the flattened tool list from the four
collections, or a thrown error. -/
inductive CatalogOutcome where
  | ok (tools : List ToolProfile)
  | err
  deriving DecidableEq, Repr

/-- The neutral fallback analysis of line 95:
empty features, empty technologies, complexity Moderate. -/
def neutralAnalysis : GeminiAnalysis :=
  ⟨[], [], .moderate⟩

/-- Lines 85–97: `analyzeProjectWithGemini` returns the parsed analysis, and
its `catch` turns any failure into the neutral analysis instead of
propagating it. -/
def analyzeProjectWithGemini (outcome : AnalysisOutcome) : GeminiAnalysis :=
  match outcome with
  | .ok a => a
  | .err => neutralAnalysis

/-- Lines 153–160: assemble the blueprint body from the project idea, the
analysis, and the final stack. -/
def mkBlueprint (projectIdea : String) (analysis : GeminiAnalysis)
    (finalStack : List ToolProfile) : Blueprint :=
  { summary := "AI-powered blueprint for \"" ++ projectIdea ++
      "\". Detected complexity: " ++ analysis.complexity.text ++ "."
    recommendedStack := finalStack
    warnings :=
      [ ⟨"AI Analysis", "Identified key features: " ++
          String.intercalate ", " analysis.features ++ "."⟩,
        ⟨"AI Analysis", "Required technologies: " ++
          String.intercalate ", " analysis.technologies ++ "."⟩ ] }

/-- Lines 100–168: the request-level control flow of the API handler.

`initOk` is the outcome of `initializeServices()` (false = it threw),
`hasSession` is whether `getServerSession` produced a session with a user,
and `projectIdea` is the request-body field (`none` = absent; the guard
`if (!projectIdea)` also fires on the empty string).  The second component of
the result records, in order, which external collaborators were invoked
during the run. -/
def handler (initOk : Bool) (hasSession : Bool) (projectIdea : Option String)
    (preferredToolIds : List String) (scoreOf : ToolProfile → Int)
    (analysisOutcome : AnalysisOutcome) (catalogOutcome : CatalogOutcome) :
    Response × List Collab :=
  if !initOk then
    (.error 500
      "Server services failed to initialize. Check environment variables and logs.",
     [])
  else if !hasSession then
    (.error 401 "Unauthorized.", [])
  else if projectIdea.getD "" == "" then
    (.error 400 "projectIdea is required.", [])
  else
    let analysis := analyzeProjectWithGemini analysisOutcome
    match catalogOutcome with
    | .err =>
        (.error 500 "An internal server error occurred during blueprint generation.",
         [.analysisService, .catalogStore])
    | .ok allTools =>
        (.success (mkBlueprint (projectIdea.getD "") analysis
          (generateStack scoreOf allTools preferredToolIds)),
         [.analysisService, .catalogStore])

/-! ### Lemmas about the de-duplication step -/

/-- Replacing every entry that carries a given identifier by another entry
with that same identifier leaves the list of identifiers unchanged. -/
lemma replaceById_map_id (m : List StackEntry) (e : StackEntry) :
    (m.map fun x => if x.tool.id == e.tool.id then e else x).map (·.tool.id)
      = m.map (·.tool.id) := by
  induction m with
  | nil => rfl
  | cons a m ih =>
    simp only [List.map_cons, ih, List.cons.injEq, and_true]
    by_cases h : (a.tool.id == e.tool.id) = true
    · simp only [if_pos h]
      exact (eq_of_beq h).symm
    · simp only [if_neg h]

/-- The identifiers after one `Map.set` step: unchanged when the key is
already present, extended by the new key otherwise. -/
lemma upsertById_map_id (m : List StackEntry) (e : StackEntry) :
    (upsertById m e).map (·.tool.id) =
      if m.any fun x => x.tool.id == e.tool.id then m.map (·.tool.id)
      else m.map (·.tool.id) ++ [e.tool.id] := by
  unfold upsertById
  by_cases h : (m.any fun x => x.tool.id == e.tool.id) = true
  · simp only [if_pos h, replaceById_map_id]
  · simp only [if_neg h, List.map_append, List.map_cons, List.map_nil]

/-- Folding `Map.set` steps over a key-distinct accumulator keeps the keys
distinct. -/
lemma foldl_upsertById_id_nodup (l : List StackEntry) :
    ∀ acc : List StackEntry, (acc.map (·.tool.id)).Nodup →
      ((l.foldl upsertById acc).map (·.tool.id)).Nodup := by
  induction l with
  | nil => exact fun _ h => h
  | cons e l ih =>
    intro acc h
    rw [List.foldl_cons]
    apply ih
    rw [upsertById_map_id]
    by_cases hc : (acc.any fun x => x.tool.id == e.tool.id) = true
    · simpa only [if_pos hc] using h
    · rw [if_neg hc]
      apply List.Nodup.append h (List.nodup_singleton _)
      intro a ha hmem
      rw [List.mem_singleton] at hmem
      subst hmem
      rw [List.mem_map] at ha
      obtain ⟨x, hx, hxe⟩ := ha
      exact hc (List.any_eq_true.mpr ⟨x, hx, by simp [hxe]⟩)

/-- The identifiers in the de-duplicated list are pairwise distinct. -/
lemma dedupById_id_nodup (l : List StackEntry) :
    ((dedupById l).map (·.tool.id)).Nodup :=
  foldl_upsertById_id_nodup l [] (by simp)

/-- On a list whose identifiers are pairwise distinct, folding the `Map.set`
steps only appends. -/
lemma foldl_upsertById_of_nodup (l : List StackEntry) :
    ∀ acc : List StackEntry, (((acc ++ l).map (·.tool.id))).Nodup →
      l.foldl upsertById acc = acc ++ l := by
  induction l with
  | nil => intro acc _; simp
  | cons e l ih =>
    intro acc h
    have hne : (acc.any fun x => x.tool.id == e.tool.id) = false := by
      rw [List.any_eq_false]
      intro x hx hbeq
      rw [List.map_append] at h
      have hdisj := List.disjoint_of_nodup_append h
      exact hdisj (List.mem_map_of_mem _ hx)
        (by
          rw [eq_of_beq hbeq]
          exact List.mem_map_of_mem _ (List.mem_cons_self e l))
    have hstep : upsertById acc e = acc ++ [e] := by
      unfold upsertById
      simp [hne]
    rw [List.foldl_cons, hstep,
      ih (acc ++ [e]) (by simpa [List.append_assoc] using h),
      List.append_assoc]
    rfl

/-- On a list whose identifiers are pairwise distinct, de-duplication is the
identity. -/
lemma dedupById_of_id_nodup (l : List StackEntry)
    (h : (l.map (·.tool.id)).Nodup) : dedupById l = l := by
  have h2 := foldl_upsertById_of_nodup l [] (by simpa using h)
  simpa [dedupById] using h2

/-- Splitting off the last `Map.set` step of the de-duplication fold. -/
lemma dedupById_append_singleton (l : List StackEntry) (e : StackEntry) :
    dedupById (l ++ [e]) = upsertById (dedupById l) e := by
  simp [dedupById, List.foldl_append]

/-- Splitting off the last step of the key-order fold. -/
lemma keysOf_append_singleton (l : List StackEntry) (e : StackEntry) :
    keysOf (l ++ [e]) =
      if (keysOf l).contains e.tool.id then keysOf l
      else keysOf l ++ [e.tool.id] := by
  simp [keysOf, List.foldl_append]

/-- Splitting off the last entry in the last-occurrence lookup. -/
lemma lastEntryWith_append_singleton (l : List StackEntry) (e : StackEntry)
    (k : String) :
    lastEntryWith (l ++ [e]) k =
      if e.tool.id == k then some e else lastEntryWith l k := by
  unfold lastEntryWith
  rw [List.filter_append]
  by_cases h : (e.tool.id == k) = true
  · simp [h, List.getLast?_concat]
  · simp [h]

/-- A successful last-occurrence lookup returns an entry of the list carrying
the requested identifier. -/
lemma lastEntryWith_eq_some (l : List StackEntry) (k : String) (d : StackEntry)
    (h : lastEntryWith l k = some d) : d.tool.id = k ∧ d ∈ l := by
  unfold lastEntryWith at h
  have hmem := List.mem_of_getLast?_eq_some h
  rw [List.mem_filter] at hmem
  exact ⟨eq_of_beq hmem.2, hmem.1⟩

/-- The last-occurrence lookup succeeds for every identifier that occurs. -/
lemma lastEntryWith_eq_some_of_mem (l : List StackEntry) (k : String)
    (h : ∃ x ∈ l, x.tool.id = k) : ∃ d, lastEntryWith l k = some d := by
  obtain ⟨x, hx, hxk⟩ := h
  have hxf : x ∈ l.filter fun e => e.tool.id == k :=
    List.mem_filter.mpr ⟨hx, by simp [hxk]⟩
  unfold lastEntryWith
  cases hL : (l.filter fun e => e.tool.id == k).getLast? with
  | some d => exact ⟨d, rfl⟩
  | none =>
    rw [List.getLast?_eq_none_iff] at hL
    rw [hL] at hxf
    cases hxf

/-- The keys of the accumulator are exactly the identifiers occurring in it. -/
lemma mem_keysOf (l : List StackEntry) (k : String) :
    k ∈ keysOf l ↔ ∃ e ∈ l, e.tool.id = k := by
  induction l using List.reverseRecOn with
  | nil => simp [keysOf]
  | append_singleton l e ih =>
    rw [keysOf_append_singleton]
    by_cases h : ((keysOf l).contains e.tool.id) = true
    · rw [if_pos h]
      rw [ih]
      constructor
      · rintro ⟨x, hx, hxk⟩
        exact ⟨x, List.mem_append_left _ hx, hxk⟩
      · rintro ⟨x, hx, hxk⟩
        rcases List.mem_append.mp hx with hx | hx
        · exact ⟨x, hx, hxk⟩
        · rw [List.mem_singleton] at hx
          subst hx
          have hmem := List.elem_iff.mp h
          rw [hxk] at hmem
          exact ih.mp hmem
    · rw [if_neg h]
      constructor
      · intro hk
        rcases List.mem_append.mp hk with hk | hk
        · obtain ⟨x, hx, hxk⟩ := ih.mp hk
          exact ⟨x, List.mem_append_left _ hx, hxk⟩
        · rw [List.mem_singleton] at hk
          exact ⟨e, List.mem_append_right _ (List.mem_singleton.mpr rfl), hk.symm⟩
      · rintro ⟨x, hx, hxk⟩
        rcases List.mem_append.mp hx with hx | hx
        · exact List.mem_append_left _ (ih.mpr ⟨x, hx, hxk⟩)
        · rw [List.mem_singleton] at hx
          subst hx
          exact List.mem_append_right _ (List.mem_singleton.mpr hxk.symm)

/-- The de-duplication step is exactly §4.4 of the specification: one entry
per identifier, identifiers in order of first occurrence, each identifier
mapped to its last occurrence in the accumulator. -/
lemma dedupById_eq_keys_map_last (l : List StackEntry) :
    dedupById l = (keysOf l).filterMap fun k => lastEntryWith l k := by
  induction l using List.reverseRecOn with
  | nil => simp [dedupById, keysOf]
  | append_singleton l e ih =>
    rw [dedupById_append_singleton, keysOf_append_singleton, ih]
    by_cases h : ((keysOf l).contains e.tool.id) = true
    · rw [if_pos h]
      have hkey := List.elem_iff.mp h
      obtain ⟨d0, hd0⟩ :=
        lastEntryWith_eq_some_of_mem l e.tool.id ((mem_keysOf l e.tool.id).mp hkey)
      have hd0id := (lastEntryWith_eq_some l e.tool.id d0 hd0).1
      have hany : (((keysOf l).filterMap fun k => lastEntryWith l k).any
          fun x => x.tool.id == e.tool.id) = true := by
        rw [List.any_eq_true]
        exact ⟨d0, List.mem_filterMap.mpr ⟨e.tool.id, hkey, hd0⟩, by simp [hd0id]⟩
      unfold upsertById
      rw [if_pos hany, List.map_filterMap]
      apply List.filterMap_congr
      intro k hk
      obtain ⟨d, hd⟩ := lastEntryWith_eq_some_of_mem l k ((mem_keysOf l k).mp hk)
      have hdid := (lastEntryWith_eq_some l k d hd).1
      rw [hd, lastEntryWith_append_singleton]
      by_cases hke : e.tool.id = k
      · rw [if_pos (by simp [hke]), Option.map_some']
        rw [if_pos (by simp [hdid, hke])]
      · have h1 : ¬((e.tool.id == k) = true) := by simp [hke]
        have h2 : ¬((d.tool.id == e.tool.id) = true) := by
          simp only [hdid, beq_iff_eq]
          exact fun hcon => hke hcon.symm
        rw [if_neg h1, Option.map_some', if_neg h2, hd]
    · rw [if_neg h]
      have hany : (((keysOf l).filterMap fun k => lastEntryWith l k).any
          fun x => x.tool.id == e.tool.id) = false := by
        rw [List.any_eq_false]
        intro x hx hbeq
        obtain ⟨k, hk, hlast⟩ := List.mem_filterMap.mp hx
        have hxid := (lastEntryWith_eq_some l k x hlast).1
        apply h
        rw [List.contains_iff_exists_mem_beq]
        have hek : e.tool.id = k := (eq_of_beq hbeq).symm.trans hxid
        exact ⟨k, hk, by simp [hek]⟩
      unfold upsertById
      rw [if_neg (by simp [hany]), List.filterMap_append]
      congr 1
      · apply List.filterMap_congr
        intro k hk
        have h3 : ¬((e.tool.id == k) = true) := by
          intro hcon
          apply h
          rw [List.contains_iff_exists_mem_beq]
          exact ⟨k, hk, hcon⟩
        rw [lastEntryWith_append_singleton, if_neg h3]
      · simp [lastEntryWith_append_singleton]

/-- The identifiers of the de-duplicated list mirror the key-order fold. -/
lemma foldl_upsertById_map_id (l : List StackEntry) :
    ∀ acc : List StackEntry,
      ((l.foldl upsertById acc).map (·.tool.id)) =
        l.foldl
          (fun ks e => if ks.contains e.tool.id then ks else ks ++ [e.tool.id])
          (acc.map (·.tool.id)) := by
  induction l with
  | nil => intro _; rfl
  | cons e l ih =>
    intro acc
    rw [List.foldl_cons, List.foldl_cons, ih, upsertById_map_id]
    have hcm : ((acc.map fun x => x.tool.id).contains e.tool.id)
        = (acc.any fun x => x.tool.id == e.tool.id) := by
      rw [Bool.eq_iff_iff]
      constructor
      · intro hc
        have hm := List.elem_iff.mp hc
        rw [List.mem_map] at hm
        obtain ⟨x, hx, hxe⟩ := hm
        exact List.any_eq_true.mpr ⟨x, hx, by simp [hxe]⟩
      · intro ha
        obtain ⟨x, hx, hbe⟩ := List.any_eq_true.mp ha
        exact List.elem_iff.mpr (List.mem_map.mpr ⟨x, hx, eq_of_beq hbe⟩)
    rw [hcm]

/-- The identifiers of the de-duplicated list are the accumulator
identifiers in order of first occurrence. -/
lemma dedupById_map_id (l : List StackEntry) :
    (dedupById l).map (·.tool.id) = keysOf l := by
  have h := foldl_upsertById_map_id l []
  simpa [dedupById, keysOf] using h

/-- Claim C1: for every catalog, preference list and scoring function, the
recommended stack contains no two entries with the same identifier. -/
theorem C1_recommended_stack_no_duplicate_ids (scoreOf : ToolProfile → Int)
    (allTools : List ToolProfile) (preferredToolIds : List String) :
    (generateStack scoreOf allTools preferredToolIds).Pairwise
      fun a b => a.id ≠ b.id := by
  have h := dedupById_id_nodup (accumulatorOf scoreOf allTools preferredToolIds)
  have h2 := List.pairwise_map.mp h
  unfold generateStack
  rw [List.pairwise_map]
  exact h2

/-! ### Lemmas about the scorer -/

/-- The boolean comparator of line 135 is transitive. -/
lemma scoredLE_trans (a b c : Scored) :
    decide (b.score ≤ a.score) = true → decide (c.score ≤ b.score) = true →
    decide (c.score ≤ a.score) = true := by
  intro h1 h2
  rw [decide_eq_true_eq] at h1 h2 ⊢
  exact le_trans h2 h1

/-- The boolean comparator of line 135 is total. -/
lemma scoredLE_total (a b : Scored) :
    (decide (b.score ≤ a.score) || decide (a.score ≤ b.score)) = true := by
  rw [Bool.or_eq_true, decide_eq_true_eq, decide_eq_true_eq]
  exact le_total b.score a.score

/-- The scorer output is sorted by descending score. -/
lemma scoreTools_sorted (scoreOf : ToolProfile → Int) (tools : List ToolProfile) :
    (scoreTools scoreOf tools).Pairwise fun a b => b.score ≤ a.score := by
  have h : (List.mergeSort (tools.map fun t => (⟨t, scoreOf t⟩ : Scored))
      fun a b => decide (b.score ≤ a.score)).Pairwise
        fun a b => (decide (b.score ≤ a.score)) = true :=
    List.sorted_mergeSort scoredLE_trans scoredLE_total _
  exact h.imp fun hab => of_decide_eq_true hab

/-- On a list sorted by descending score, `find?` returns an element of
maximal score among those satisfying the predicate. -/
lemma find?_max_of_sorted (p : Scored → Bool) :
    ∀ l : List Scored, l.Pairwise (fun a b => b.score ≤ a.score) →
      ∀ x, l.find? p = some x → ∀ y ∈ l, p y = true → y.score ≤ x.score := by
  intro l
  induction l with
  | nil =>
    intro _ x hx
    simp at hx
  | cons a l ih =>
    intro hp x hx y hy hpy
    rcases List.pairwise_cons.mp hp with ⟨ha, hl⟩
    by_cases hpa : p a = true
    · rw [List.find?_cons_of_pos _ hpa] at hx
      injection hx with hx
      subst hx
      rcases List.mem_cons.mp hy with rfl | hy
      · exact le_refl _
      · exact ha y hy
    · rw [List.find?_cons_of_neg _ hpa] at hx
      rcases List.mem_cons.mp hy with rfl | hy
      · exact absurd hpy hpa
      · exact ih hl x hx y hy hpy

/-- Claim C4: the scorer is total over all inputs (an empty input list yields
an empty output list); its output is the same tools with scores attached,
sorted in descending order of score, with ties broken by input (catalog)
order because the sort is stable; consequently a scan of its output never
finds a match with a smaller score than a later match. -/
theorem C4_scorer_sort_contract (scoreOf : ToolProfile → Int)
    (tools : List ToolProfile) :
    scoreTools scoreOf [] = [] ∧
    (scoreTools scoreOf tools).Perm (tools.map fun t => ⟨t, scoreOf t⟩) ∧
    ((scoreTools scoreOf tools).Pairwise fun a b => b.score ≤ a.score) ∧
    (∀ x y : Scored, x.score = y.score →
      [x, y].Sublist (tools.map fun t => ⟨t, scoreOf t⟩) →
      [x, y].Sublist (scoreTools scoreOf tools)) ∧
    (∀ (p : Scored → Bool) (x : Scored),
      (scoreTools scoreOf tools).find? p = some x →
      ∀ y ∈ scoreTools scoreOf tools, p y = true → y.score ≤ x.score) := by
  refine ⟨by simp [scoreTools], List.mergeSort_perm _ _,
    scoreTools_sorted scoreOf tools, ?_, ?_⟩
  · intro x y hxy hsub
    exact List.pair_sublist_mergeSort scoredLE_trans scoredLE_total
      (by rw [decide_eq_true_eq, hxy]) hsub
  · intro p x hx y hy hpy
    exact find?_max_of_sorted p _ (scoreTools_sorted scoreOf tools) x hx y hy hpy

/-! ### Lemmas about the category completer and the accumulator -/

/-- One completion pass either leaves the accumulator unchanged or appends a
single scored tool of the requested category whose identifier is fresh. -/
lemma completeCategory_eq_or_append (scored : List Scored)
    (acc : List StackEntry) (c : String) :
    completeCategory scored acc c = acc ∨
      ∃ s ∈ scored, s.tool.category = c ∧
        (∀ e ∈ acc, e.tool.id ≠ s.tool.id) ∧
        completeCategory scored acc c = acc ++ [s.toEntry] := by
  unfold completeCategory
  by_cases h1 : (acc.any fun t => t.tool.category == c) = true
  · left
    rw [if_pos h1]
  · rw [if_neg h1]
    cases hf : scored.find? (fun t => t.tool.category == c &&
        !(acc.any fun s => s.tool.id == t.tool.id)) with
    | none => exact Or.inl rfl
    | some bestFit =>
      right
      have hp := List.find?_some hf
      rw [Bool.and_eq_true] at hp
      refine ⟨bestFit, List.mem_of_find?_eq_some hf, eq_of_beq hp.1, ?_, rfl⟩
      intro e he heq
      have h2 := hp.2
      rw [Bool.not_eq_true', List.any_eq_false] at h2
      exact h2 e he (by simp [heq])

/-- One completion pass only appends. -/
lemma completeCategory_suffix (scored : List Scored) (acc : List StackEntry)
    (c : String) : ∃ l2, completeCategory scored acc c = acc ++ l2 := by
  rcases completeCategory_eq_or_append scored acc c with h | ⟨s, _, _, _, h⟩
  · exact ⟨[], by rw [h, List.append_nil]⟩
  · exact ⟨[s.toEntry], h⟩

/-- The essential-category loop only appends. -/
lemma foldl_completeCategory_suffix (scored : List Scored) (cs : List String) :
    ∀ acc : List StackEntry,
      ∃ l2, cs.foldl (completeCategory scored) acc = acc ++ l2 := by
  induction cs with
  | nil => exact fun acc => ⟨[], by simp⟩
  | cons c cs ih =>
    intro acc
    obtain ⟨l1, h1⟩ := completeCategory_suffix scored acc c
    obtain ⟨l2, h2⟩ := ih (completeCategory scored acc c)
    exact ⟨l1 ++ l2, by rw [List.foldl_cons, h2, h1, List.append_assoc]⟩

/-- Accumulator entries survive one completion pass. -/
lemma mem_completeCategory_of_mem (scored : List Scored)
    (acc : List StackEntry) (c : String) (e : StackEntry) (h : e ∈ acc) :
    e ∈ completeCategory scored acc c := by
  obtain ⟨l2, h2⟩ := completeCategory_suffix scored acc c
  rw [h2]
  exact List.mem_append_left _ h

/-- Accumulator entries survive the essential-category loop. -/
lemma mem_foldl_completeCategory_of_mem (scored : List Scored)
    (cs : List String) (acc : List StackEntry) (e : StackEntry) (h : e ∈ acc) :
    e ∈ cs.foldl (completeCategory scored) acc := by
  obtain ⟨l2, h2⟩ := foldl_completeCategory_suffix scored cs acc
  rw [h2]
  exact List.mem_append_left _ h

/-- Entries after one completion pass come from the accumulator or the
scored list. -/
lemma completeCategory_mem (scored : List Scored) (acc : List StackEntry)
    (c : String) (e : StackEntry) (he : e ∈ completeCategory scored acc c) :
    e ∈ acc ∨ ∃ s ∈ scored, e = s.toEntry := by
  rcases completeCategory_eq_or_append scored acc c with h | ⟨s, hs, _, _, h⟩
  · rw [h] at he
    exact Or.inl he
  · rw [h] at he
    rcases List.mem_append.mp he with he | he
    · exact Or.inl he
    · rw [List.mem_singleton] at he
      exact Or.inr ⟨s, hs, he⟩

/-- A completion pass keeps the accumulator identifiers pairwise distinct. -/
lemma completeCategory_id_nodup (scored : List Scored) (acc : List StackEntry)
    (c : String) (h : (acc.map (·.tool.id)).Nodup) :
    ((completeCategory scored acc c).map (·.tool.id)).Nodup := by
  rcases completeCategory_eq_or_append scored acc c with h1 | ⟨s, _, _, hfresh, h1⟩
  · rw [h1]
    exact h
  · rw [h1, List.map_append]
    apply List.Nodup.append h (List.nodup_singleton _)
    intro a ha hmem
    rw [List.mem_singleton] at hmem
    subst hmem
    rw [List.mem_map] at ha
    obtain ⟨x, hx, hxe⟩ := ha
    exact hfresh x hx hxe

/-- The essential-category loop keeps the identifiers pairwise distinct. -/
lemma foldl_completeCategory_id_nodup (scored : List Scored) (cs : List String) :
    ∀ acc : List StackEntry, (acc.map (·.tool.id)).Nodup →
      ((cs.foldl (completeCategory scored) acc).map (·.tool.id)).Nodup := by
  induction cs with
  | nil => exact fun _ h => h
  | cons c cs ih =>
    intro acc h
    rw [List.foldl_cons]
    exact ih _ (completeCategory_id_nodup scored acc c h)

/-- With an id-unique catalog the accumulator identifiers are pairwise
distinct: preferred tools inherit distinctness from the catalog, and every
backfill checks the identifier is fresh before appending. -/
lemma accumulatorOf_id_nodup (scoreOf : ToolProfile → Int)
    (allTools : List ToolProfile) (preferredToolIds : List String)
    (h : (allTools.map (·.id)).Nodup) :
    ((accumulatorOf scoreOf allTools preferredToolIds).map (·.tool.id)).Nodup := by
  unfold accumulatorOf
  apply completeCategory_id_nodup
  apply foldl_completeCategory_id_nodup
  rw [List.map_map]
  show ((preferredOf allTools preferredToolIds).map (·.id)).Nodup
  exact List.Nodup.sublist ((List.filter_sublist _).map _) h

/-- With an id-unique catalog, de-duplication leaves the accumulator
unchanged, so the final stack is the accumulator with scores stripped. -/
lemma generateStack_eq_accumulator (scoreOf : ToolProfile → Int)
    (allTools : List ToolProfile) (preferredToolIds : List String)
    (h : (allTools.map (·.id)).Nodup) :
    generateStack scoreOf allTools preferredToolIds =
      (accumulatorOf scoreOf allTools preferredToolIds).map (·.tool) := by
  unfold generateStack
  rw [dedupById_of_id_nodup _
    (accumulatorOf_id_nodup scoreOf allTools preferredToolIds h)]

/-- Every preferred tool sits in the accumulator as an unscored entry. -/
lemma preferred_mem_accumulatorOf (scoreOf : ToolProfile → Int)
    (allTools : List ToolProfile) (preferredToolIds : List String)
    (t : ToolProfile) (ht : t ∈ preferredOf allTools preferredToolIds) :
    (⟨t, none⟩ : StackEntry) ∈ accumulatorOf scoreOf allTools preferredToolIds := by
  unfold accumulatorOf
  apply mem_completeCategory_of_mem
  apply mem_foldl_completeCategory_of_mem
  exact List.mem_map_of_mem _ ht

/-- The underlying tool of every scored entry comes from the scorer input. -/
lemma scoreTools_tool_mem (scoreOf : ToolProfile → Int)
    (tools : List ToolProfile) (s : Scored)
    (hs : s ∈ scoreTools scoreOf tools) : s.tool ∈ tools := by
  unfold scoreTools at hs
  rw [List.mem_mergeSort, List.mem_map] at hs
  obtain ⟨t, ht, rfl⟩ := hs
  exact ht

/-- One completion pass yields a tool of the requested category whenever an
unblocked candidate exists each time the accumulator lacks that category. -/
lemma completeCategory_covers (scored : List Scored) (acc : List StackEntry)
    (c : String)
    (hcand : (∀ e ∈ acc, e.tool.category ≠ c) →
      ∃ s ∈ scored, s.tool.category = c ∧ ∀ e ∈ acc, e.tool.id ≠ s.tool.id) :
    ∃ e ∈ completeCategory scored acc c, e.tool.category = c := by
  unfold completeCategory
  by_cases h1 : (acc.any fun t => t.tool.category == c) = true
  · rw [if_pos h1]
    obtain ⟨e, he, hec⟩ := List.any_eq_true.mp h1
    exact ⟨e, he, eq_of_beq hec⟩
  · rw [if_neg h1]
    have hnone : ∀ e ∈ acc, e.tool.category ≠ c := by
      intro e he heq
      exact h1 (List.any_eq_true.mpr ⟨e, he, by simp [heq]⟩)
    obtain ⟨s, hs, hsc, hfresh⟩ := hcand hnone
    have hps : (s.tool.category == c &&
        !(acc.any fun s2 => s2.tool.id == s.tool.id)) = true := by
      rw [Bool.and_eq_true]
      refine ⟨by simp [hsc], ?_⟩
      rw [Bool.not_eq_true', List.any_eq_false]
      intro e he
      simp only [beq_iff_eq]
      exact hfresh e he
    cases hf : scored.find? (fun t => t.tool.category == c &&
        !(acc.any fun s => s.tool.id == t.tool.id)) with
    | none =>
      rw [List.find?_eq_none] at hf
      exact absurd hps (hf s hs)
    | some bestFit =>
      have hp := List.find?_some hf
      rw [Bool.and_eq_true] at hp
      exact ⟨bestFit.toEntry,
        List.mem_append_right _ (List.mem_singleton.mpr rfl),
        eq_of_beq hp.1⟩

/-- With an id-unique catalog, whenever some catalog tool has category `c`
and the accumulator contains every preferred tool but no tool of category
`c`, the scored remainder offers an unblocked candidate of category `c`. -/
lemma scored_candidate_of_catalog (scoreOf : ToolProfile → Int)
    (allTools : List ToolProfile) (preferredToolIds : List String) (c : String)
    (hU : (allTools.map (·.id)).Nodup)
    (ht : ∃ t ∈ allTools, t.category = c)
    (acc : List StackEntry)
    (hacc : ∀ e ∈ acc, e.tool ∈ allTools)
    (hpref : ∀ t ∈ preferredOf allTools preferredToolIds, ∃ e ∈ acc, e.tool = t)
    (hnone : ∀ e ∈ acc, e.tool.category ≠ c) :
    ∃ s ∈ scoreTools scoreOf (remainingOf allTools preferredToolIds),
      s.tool.category = c ∧ ∀ e ∈ acc, e.tool.id ≠ s.tool.id := by
  obtain ⟨t, htL, htc⟩ := ht
  by_cases hp : (preferredToolIds.contains t.id) = true
  · exfalso
    obtain ⟨e, he, het⟩ := hpref t (List.mem_filter.mpr ⟨htL, hp⟩)
    exact hnone e he (by rw [het, htc])
  · have hcf : preferredToolIds.contains t.id = false := Bool.eq_false_iff.mpr hp
    have htr : t ∈ remainingOf allTools preferredToolIds :=
      List.mem_filter.mpr ⟨htL, by rw [hcf]; rfl⟩
    refine ⟨⟨t, scoreOf t⟩, ?_, htc, ?_⟩
    · unfold scoreTools
      rw [List.mem_mergeSort]
      exact List.mem_map_of_mem _ htr
    · intro e he heq
      have heL := hacc e he
      have het : e.tool = t := List.inj_on_of_nodup_map hU heL htL heq
      exact hnone e he (by rw [het, htc])

/-- The essential-category loop covers every category of its list that the
catalog offers, given an id-unique catalog and an accumulator drawn from the
catalog that contains every preferred tool. -/
lemma foldl_completeCategory_covers (scoreOf : ToolProfile → Int)
    (allTools : List ToolProfile) (preferredToolIds : List String)
    (hU : (allTools.map (·.id)).Nodup) (cs : List String) :
    ∀ acc : List StackEntry,
      (∀ e ∈ acc, e.tool ∈ allTools) →
      (∀ t ∈ preferredOf allTools preferredToolIds, ∃ e ∈ acc, e.tool = t) →
      ∀ c ∈ cs, (∃ t ∈ allTools, t.category = c) →
        ∃ e ∈ cs.foldl
            (completeCategory
              (scoreTools scoreOf (remainingOf allTools preferredToolIds)))
            acc,
          e.tool.category = c := by
  induction cs with
  | nil =>
    intro acc _ _ c hc
    exact absurd hc (List.not_mem_nil c)
  | cons c0 cs ih =>
    intro acc hacc hpref c hc ht
    rw [List.foldl_cons]
    have hacc1 : ∀ e ∈ completeCategory
        (scoreTools scoreOf (remainingOf allTools preferredToolIds)) acc c0,
        e.tool ∈ allTools := by
      intro e he
      rcases completeCategory_mem _ _ _ _ he with h | ⟨s, hs, rfl⟩
      · exact hacc e h
      · have hs2 := scoreTools_tool_mem scoreOf _ s hs
        rw [remainingOf, List.mem_filter] at hs2
        exact hs2.1
    have hpref1 : ∀ t ∈ preferredOf allTools preferredToolIds,
        ∃ e ∈ completeCategory
          (scoreTools scoreOf (remainingOf allTools preferredToolIds)) acc c0,
          e.tool = t := by
      intro t ht2
      obtain ⟨e, he, het⟩ := hpref t ht2
      exact ⟨e, mem_completeCategory_of_mem _ _ _ _ he, het⟩
    rcases List.mem_cons.mp hc with rfl | hc2
    · obtain ⟨e, he, hec⟩ := completeCategory_covers
        (scoreTools scoreOf (remainingOf allTools preferredToolIds)) acc c
        (fun hnone => scored_candidate_of_catalog scoreOf allTools
          preferredToolIds c hU ht acc hacc hpref hnone)
      exact ⟨e, mem_foldl_completeCategory_of_mem _ cs _ e he, hec⟩
    · exact ih _ hacc1 hpref1 c hc2 ht

/-- Claim C2: for every catalog that contains at least one tool in each
essential category, the final recommended stack contains at least one tool
of each essential category.  The catalog is id-unique as §3 of the
specification requires; the statement holds whether or not preferred tools
are excluded from consideration, because a preferred tool of an essential
category is itself carried into the final stack. -/
theorem C2_essential_categories_covered (scoreOf : ToolProfile → Int)
    (allTools : List ToolProfile) (preferredToolIds : List String)
    (hU : (allTools.map (·.id)).Nodup)
    (hcat : ∀ c ∈ essentialCategories, ∃ t ∈ allTools, t.category = c) :
    ∀ c ∈ essentialCategories,
      ∃ t ∈ generateStack scoreOf allTools preferredToolIds, t.category = c := by
  intro c hc
  rw [generateStack_eq_accumulator scoreOf allTools preferredToolIds hU]
  have hacc0 : ∀ e ∈ (preferredOf allTools preferredToolIds).map
      (fun t => (⟨t, none⟩ : StackEntry)), e.tool ∈ allTools := by
    intro e he
    rw [List.mem_map] at he
    obtain ⟨t, ht, rfl⟩ := he
    exact (List.mem_filter.mp ht).1
  have hpref0 : ∀ t ∈ preferredOf allTools preferredToolIds,
      ∃ e ∈ (preferredOf allTools preferredToolIds).map
        (fun t => (⟨t, none⟩ : StackEntry)), e.tool = t :=
    fun t ht => ⟨⟨t, none⟩, List.mem_map_of_mem _ ht, rfl⟩
  obtain ⟨e, he, hec⟩ := foldl_completeCategory_covers scoreOf allTools
    preferredToolIds hU essentialCategories _ hacc0 hpref0 c hc (hcat c hc)
  unfold accumulatorOf
  exact ⟨e.tool,
    List.mem_map_of_mem _ (mem_completeCategory_of_mem _ _ _ e he), hec⟩

/-- Concrete instantiation of C2: a three-tool catalog, one tool per
essential category, no preferences — the stack covers the Database
category. -/
theorem C2_essential_categories_covered_witness :
    ∃ t ∈ generateStack (fun _ => 0)
      [⟨"lm1", "GPT", "Language Model", 1, 1⟩,
       ⟨"db1", "SQLite", "Database", 1, 1⟩,
       ⟨"dp1", "Vercel", "Deployment Platform", 1, 1⟩] [],
      t.category = "Database" :=
  C2_essential_categories_covered (fun _ => 0)
    [⟨"lm1", "GPT", "Language Model", 1, 1⟩,
     ⟨"db1", "SQLite", "Database", 1, 1⟩,
     ⟨"dp1", "Vercel", "Deployment Platform", 1, 1⟩] []
    (by decide) (by decide) "Database" (by decide)

/-- Claim C3: every catalog tool whose identifier appears in
`preferredToolIds` is excluded from the scorer input and appears in the
final recommended stack, regardless of its category or score.  The catalog
is id-unique as §3 of the specification requires. -/
theorem C3_preferred_excluded_from_scoring_and_included (scoreOf : ToolProfile → Int)
    (allTools : List ToolProfile) (preferredToolIds : List String)
    (hU : (allTools.map (·.id)).Nodup) :
    ∀ t ∈ allTools, t.id ∈ preferredToolIds →
      t ∉ remainingOf allTools preferredToolIds ∧
      t ∈ generateStack scoreOf allTools preferredToolIds := by
  intro t ht hp
  have hct : preferredToolIds.contains t.id = true := List.elem_iff.mpr hp
  constructor
  · intro hmem
    rw [remainingOf, List.mem_filter, hct] at hmem
    exact absurd hmem.2 (by simp)
  · rw [generateStack_eq_accumulator scoreOf allTools preferredToolIds hU]
    have hmem := preferred_mem_accumulatorOf scoreOf allTools preferredToolIds t
      (List.mem_filter.mpr ⟨ht, hct⟩)
    exact List.mem_map.mpr ⟨⟨t, none⟩, hmem, rfl⟩

/-- Concrete instantiation of C3: a preferred Database tool is kept out of
the scorer input and appears in the final stack. -/
theorem C3_preferred_excluded_from_scoring_and_included_witness :
    (⟨"db1", "SQLite", "Database", 1, 1⟩ : ToolProfile) ∉
        remainingOf
          [⟨"db1", "SQLite", "Database", 1, 1⟩,
           ⟨"lm1", "GPT", "Language Model", 1, 1⟩] ["db1"] ∧
      (⟨"db1", "SQLite", "Database", 1, 1⟩ : ToolProfile) ∈
        generateStack (fun _ => 0)
          [⟨"db1", "SQLite", "Database", 1, 1⟩,
           ⟨"lm1", "GPT", "Language Model", 1, 1⟩] ["db1"] :=
  C3_preferred_excluded_from_scoring_and_included (fun _ => 0)
    [⟨"db1", "SQLite", "Database", 1, 1⟩,
     ⟨"lm1", "GPT", "Language Model", 1, 1⟩] ["db1"]
    (by decide) ⟨"db1", "SQLite", "Database", 1, 1⟩ (by decide) (by decide)

/-- Concrete instantiation of C4: two equal-score tools keep their catalog
order in the scorer output (stability). -/
theorem C4_scorer_sort_contract_witness :
    [(⟨⟨"a", "A", "Database", 1, 1⟩, 0⟩ : Scored),
     ⟨⟨"b", "B", "Database", 1, 1⟩, 0⟩].Sublist
      (scoreTools (fun _ => 0)
        [⟨"a", "A", "Database", 1, 1⟩, ⟨"b", "B", "Database", 1, 1⟩]) :=
  (C4_scorer_sort_contract (fun _ => 0)
      [⟨"a", "A", "Database", 1, 1⟩, ⟨"b", "B", "Database", 1, 1⟩]).2.2.2.1
    ⟨⟨"a", "A", "Database", 1, 1⟩, 0⟩ ⟨⟨"b", "B", "Database", 1, 1⟩, 0⟩
    rfl (List.Sublist.refl _)

/-! ### Claims about the terminal de-duplication step -/

/-- Claim C5: the de-duplication step returns one entry per identifier, in
order of first occurrence of each identifier in the accumulator, with the
transient score field stripped, and this output is exactly the
`recommendedStack` of the success response. -/
theorem C5_dedup_terminal_step (scoreOf : ToolProfile → Int)
    (allTools : List ToolProfile) (preferredToolIds : List String)
    (projectIdea : String) (analysisOutcome : AnalysisOutcome)
    (h : projectIdea ≠ "") :
    ((generateStack scoreOf allTools preferredToolIds).map (·.id)
        = keysOf (accumulatorOf scoreOf allTools preferredToolIds)) ∧
    (keysOf (accumulatorOf scoreOf allTools preferredToolIds)).Nodup ∧
    (handler true true (some projectIdea) preferredToolIds scoreOf
        analysisOutcome (.ok allTools)).1
      = .success (mkBlueprint projectIdea
          (analyzeProjectWithGemini analysisOutcome)
          ((dedupById (accumulatorOf scoreOf allTools preferredToolIds)).map
            (·.tool))) := by
  have hb : (projectIdea == "") = false := beq_eq_false_iff_ne.mpr h
  refine ⟨?_, ?_, ?_⟩
  · unfold generateStack
    rw [List.map_map]
    exact dedupById_map_id _
  · rw [← dedupById_map_id]
    exact dedupById_id_nodup _
  · simp [handler, hb, generateStack]

/-- Concrete instantiation of C5: the stack identifiers of a one-tool
catalog are the accumulator keys in first-occurrence order. -/
theorem C5_dedup_terminal_step_witness :
    (generateStack (fun _ => 0) [⟨"a", "A", "Database", 1, 1⟩] []).map (·.id)
      = keysOf (accumulatorOf (fun _ => 0) [⟨"a", "A", "Database", 1, 1⟩] []) :=
  (C5_dedup_terminal_step (fun _ => 0) [⟨"a", "A", "Database", 1, 1⟩] [] "app"
    (.ok neutralAnalysis) (by decide)).1

/-- Claim C9: over the whole pipeline, the de-duplicated stack maps each
identifier, placed at the position of its first occurrence in the
accumulator, to the field values of the last accumulator entry carrying that
identifier; in particular two same-identifier catalog tools that both reach
the accumulator as preferred tools collapse to the later one. -/
theorem C9_duplicate_ids_last_value_first_position (scoreOf : ToolProfile → Int)
    (allTools : List ToolProfile) (preferredToolIds : List String) :
    (generateStack scoreOf allTools preferredToolIds
        = ((keysOf (accumulatorOf scoreOf allTools preferredToolIds)).filterMap
            fun k => lastEntryWith (accumulatorOf scoreOf allTools preferredToolIds) k).map
            (·.tool)) ∧
    ∀ t1 t2 : ToolProfile, t1.id = t2.id →
      generateStack scoreOf [t1, t2] [t1.id] = [t2] := by
  constructor
  · unfold generateStack
    rw [dedupById_eq_keys_map_last]
  · intro t1 t2 h
    have hpref : preferredOf [t1, t2] [t1.id] = [t1, t2] := by
      simp [preferredOf, h]
    have hrem : remainingOf [t1, t2] [t1.id] = [] := by
      simp [remainingOf, h]
    have hscore : scoreTools scoreOf (remainingOf [t1, t2] [t1.id]) = [] := by
      rw [hrem]
      simp [scoreTools]
    have hcc : ∀ (acc : List StackEntry) (c : String),
        completeCategory [] acc c = acc := by
      intro acc c
      unfold completeCategory
      by_cases h1 : (acc.any fun t => t.tool.category == c) = true
      · rw [if_pos h1]
      · rw [if_neg h1]
        rfl
    have hacc : accumulatorOf scoreOf [t1, t2] [t1.id]
        = [⟨t1, none⟩, ⟨t2, none⟩] := by
      unfold accumulatorOf
      rw [hscore, hpref]
      simp [essentialCategories, hcc]
    unfold generateStack
    rw [hacc]
    unfold dedupById
    rw [List.foldl_cons, List.foldl_cons, List.foldl_nil]
    have h1 : upsertById [] ⟨t1, none⟩ = [⟨t1, none⟩] := rfl
    rw [h1]
    have h2 : upsertById [⟨t1, none⟩] ⟨t2, none⟩ = [⟨t2, none⟩] := by
      unfold upsertById
      have hb : (t1.id == t2.id) = true := by simp [h]
      simp [hb]
      exact fun hne => absurd h hne
    rw [h2]
    rfl

/-- Concrete instantiation of C9: two catalog tools sharing an identifier,
both preferred — the stack keeps the second set of field values at the first
position. -/
theorem C9_duplicate_ids_last_value_first_position_witness :
    generateStack (fun _ => 0)
        [⟨"x", "A", "Language Model", 1, 1⟩, ⟨"x", "B", "Database", 2, 2⟩] ["x"]
      = [⟨"x", "B", "Database", 2, 2⟩] :=
  (C9_duplicate_ids_last_value_first_position (fun _ => 0)
      [⟨"x", "A", "Language Model", 1, 1⟩, ⟨"x", "B", "Database", 2, 2⟩] ["x"]).2
    ⟨"x", "A", "Language Model", 1, 1⟩ ⟨"x", "B", "Database", 2, 2⟩ rfl

/-! ### Claims about the request-level control flow -/

/-- Claim C6: when the project-analysis collaborator fails, the pipeline
substitutes the neutral analysis, behaves exactly as if the collaborator had
returned it, and still answers HTTP 200 with the usual stack. -/
theorem C6_analysis_failure_neutral_fallback (projectIdea : String)
    (preferredToolIds : List String) (scoreOf : ToolProfile → Int)
    (allTools : List ToolProfile) (h : projectIdea ≠ "") :
    (handler true true (some projectIdea) preferredToolIds scoreOf .err
        (.ok allTools)
      = handler true true (some projectIdea) preferredToolIds scoreOf
          (.ok neutralAnalysis) (.ok allTools)) ∧
    (handler true true (some projectIdea) preferredToolIds scoreOf .err
        (.ok allTools)).1.status = 200 ∧
    (handler true true (some projectIdea) preferredToolIds scoreOf .err
        (.ok allTools)).1
      = .success (mkBlueprint projectIdea neutralAnalysis
          (generateStack scoreOf allTools preferredToolIds)) := by
  have hb : (projectIdea == "") = false := beq_eq_false_iff_ne.mpr h
  refine ⟨?_, ?_, ?_⟩ <;>
    simp [handler, hb, analyzeProjectWithGemini, Response.status]

/-- Concrete instantiation of C6: a failed analysis still yields HTTP 200. -/
theorem C6_analysis_failure_neutral_fallback_witness :
    (handler true true (some "todo app") [] (fun _ => 0) .err (.ok [])).1.status
      = 200 :=
  (C6_analysis_failure_neutral_fallback "todo app" [] (fun _ => 0) []
    (by decide)).2.1

/-- Claim C7: a request whose projectIdea is missing or empty is rejected
with the 400 validation error, and no collaborator is invoked. -/
theorem C7_empty_projectIdea_rejected_before_collaborators
    (preferredToolIds : List String) (scoreOf : ToolProfile → Int)
    (analysisOutcome : AnalysisOutcome) (catalogOutcome : CatalogOutcome) :
    (handler true true none preferredToolIds scoreOf analysisOutcome
        catalogOutcome
      = (.error 400 "projectIdea is required.", [])) ∧
    (handler true true (some "") preferredToolIds scoreOf analysisOutcome
        catalogOutcome
      = (.error 400 "projectIdea is required.", [])) := by
  constructor <;> rfl

/-- Claim C8: a request with no authenticated session is rejected with 401,
and neither the catalog store nor any other collaborator is ever called. -/
theorem C8_unauthenticated_rejected_before_catalog (projectIdea : Option String)
    (preferredToolIds : List String) (scoreOf : ToolProfile → Int)
    (analysisOutcome : AnalysisOutcome) (catalogOutcome : CatalogOutcome) :
    (handler true false projectIdea preferredToolIds scoreOf analysisOutcome
        catalogOutcome
      = (.error 401 "Unauthorized.", [])) ∧
    Collab.catalogStore ∉
      (handler true false projectIdea preferredToolIds scoreOf analysisOutcome
        catalogOutcome).2 := by
  have h : handler true false projectIdea preferredToolIds scoreOf
      analysisOutcome catalogOutcome = (.error 401 "Unauthorized.", []) := rfl
  refine ⟨h, ?_⟩
  rw [h]
  simp

/-- `preferredToolIds` is consulted only through membership tests on catalog
identifiers, so identifiers matching no catalog tool are invisible. -/
lemma contains_filter_matching (allTools : List ToolProfile)
    (preferredToolIds : List String) (t : ToolProfile) (ht : t ∈ allTools) :
    ((preferredToolIds.filter fun pid =>
        allTools.any fun x => x.id == pid).contains t.id)
      = preferredToolIds.contains t.id := by
  rw [Bool.eq_iff_iff]
  constructor
  · intro hc
    have hm := List.elem_iff.mp hc
    rw [List.mem_filter] at hm
    exact List.elem_iff.mpr hm.1
  · intro hc
    apply List.elem_iff.mpr
    rw [List.mem_filter]
    exact ⟨List.elem_iff.mp hc, List.any_eq_true.mpr ⟨t, ht, by simp⟩⟩

/-- The preference split is unchanged by dropping unmatched identifiers. -/
lemma preferredOf_filter_matching (allTools : List ToolProfile)
    (preferredToolIds : List String) :
    preferredOf allTools
        (preferredToolIds.filter fun pid => allTools.any fun x => x.id == pid)
      = preferredOf allTools preferredToolIds := by
  unfold preferredOf
  apply List.filter_congr
  intro t ht
  exact contains_filter_matching allTools preferredToolIds t ht

/-- The scorer input is unchanged by dropping unmatched identifiers. -/
lemma remainingOf_filter_matching (allTools : List ToolProfile)
    (preferredToolIds : List String) :
    remainingOf allTools
        (preferredToolIds.filter fun pid => allTools.any fun x => x.id == pid)
      = remainingOf allTools preferredToolIds := by
  unfold remainingOf
  apply List.filter_congr
  intro t ht
  rw [contains_filter_matching allTools preferredToolIds t ht]

/-- The final stack is unchanged by dropping unmatched identifiers. -/
lemma generateStack_filter_matching (scoreOf : ToolProfile → Int)
    (allTools : List ToolProfile) (preferredToolIds : List String) :
    generateStack scoreOf allTools
        (preferredToolIds.filter fun pid => allTools.any fun x => x.id == pid)
      = generateStack scoreOf allTools preferredToolIds := by
  unfold generateStack accumulatorOf
  rw [preferredOf_filter_matching, remainingOf_filter_matching]

/-- Claim C10: identifiers in `preferredToolIds` that match no catalog tool
are silently ignored — the whole response (stack, warnings, status, and
collaborator calls) equals the response for the same request with those
identifiers removed. -/
theorem C10_unmatched_preferred_ids_ignored (initOk hasSession : Bool)
    (projectIdea : Option String) (preferredToolIds : List String)
    (scoreOf : ToolProfile → Int) (analysisOutcome : AnalysisOutcome)
    (allTools : List ToolProfile) :
    handler initOk hasSession projectIdea preferredToolIds scoreOf
        analysisOutcome (.ok allTools)
      = handler initOk hasSession projectIdea
          (preferredToolIds.filter fun pid => allTools.any fun x => x.id == pid)
          scoreOf analysisOutcome (.ok allTools) := by
  simp only [handler]
  rw [generateStack_filter_matching]

end StackFast
